import Mathlib

/-!
Shallow embedding of the PNICER dust-extinction estimation code (`pnicer.py`)
together with proofs about its specification.

Modelling conventions:
* A numpy float value is modelled as `Option` of a linearly ordered field
  (`none` models a non-finite entry, i.e. NaN or infinity); arithmetic on
  these values propagates `none` exactly as IEEE arithmetic propagates NaN.
* numpy arrays are modelled as lists (or `Fin`-indexed functions where the
  code works with fixed-dimensional vectors and matrices).
* `np.around` is banker's rounding (round half to even), as in numpy.
* Computations on real numbers (the rotation matrices built from `arctan`,
  `cos`, `sin`, kernel densities, spherical distances) are embedded over `ℝ`;
  purely rational computations are kept generic so they can be evaluated.
* Python exceptions are modelled with `Except PyError`.
-/

namespace Pnicer

open Matrix

/-- Errors raised by the Python runtime in the modelled code paths. -/
inductive PyError where
  | typeError
  | valueError
  | indexError
deriving DecidableEq

/-- A numpy float: `none` is a non-finite value (NaN/inf), `some x` a finite one. -/
abbrev Val (α : Type) := Option α

variable {α : Type} [LinearOrderedField α]

/-- NaN-propagating addition. -/
def vAdd : Val α → Val α → Val α
  | some a, some b => some (a + b)
  | _, _ => none

/-- NaN-propagating subtraction. -/
def vSub : Val α → Val α → Val α
  | some a, some b => some (a - b)
  | _, _ => none

/-- NaN-propagating multiplication. -/
def vMul : Val α → Val α → Val α
  | some a, some b => some (a * b)
  | _, _ => none

/-- NaN-propagating negation. -/
def vNeg : Val α → Val α
  | some a => some (-a)
  | none => none

/-- NaN-propagating squaring (`x ** 2`). -/
def vSq : Val α → Val α
  | some a => some (a * a)
  | none => none

/-- numpy banker's rounding to the nearest integer (`np.around` with 0 decimals). -/
def around [FloorRing α] (x : α) : α :=
  if x - (⌊x⌋ : α) < 1 / 2 then (⌊x⌋ : α)
  else if 1 / 2 < x - (⌊x⌋ : α) then (⌊x⌋ : α) + 1
  else if Even ⌊x⌋ then (⌊x⌋ : α) else (⌊x⌋ : α) + 1

/-- Embedding of `DataBase.round_partial`: `np.around(data / precision) * precision`. -/
def roundPrec [FloorRing α] (precision x : α) : α :=
  around (x / precision) * precision

/-- Keep the first occurrence of every element (the deduplication performed by
`np.unique` in `DataBase.build_grid`; `np.unique` additionally sorts, which is
irrelevant for the set of grid points). -/
def uniqueFirst {P : Type} [DecidableEq P] : List P → List P
  | [] => []
  | x :: xs => x :: uniqueFirst (xs.filter (fun y => y ≠ x))
termination_by l => l.length
decreasing_by
  simp only [List.length_cons]
  exact Nat.lt_succ_of_le (List.length_filter_le _ _)

/-- Quantize every point and keep unique quantized positions. -/
def buildGridP {P : Type} [DecidableEq P] (quant : P → P) (pts : List P) : List P :=
  uniqueFirst (pts.map quant)

/-- Embedding of `DataBase.build_grid`: data is a list of points (the transposed
numpy array), each point a list of coordinates, quantized coordinatewise with
`round_partial` and deduplicated. -/
def buildGrid [FloorRing α] [DecidableEq α] (data : List (List α)) (precision : α) :
    List (List α) :=
  buildGridP (List.map (roundPrec precision)) data

theorem around_intCast [FloorRing α] (n : ℤ) : around ((n : ℤ) : α) = n := by
  unfold around
  rw [Int.floor_intCast]
  norm_num

theorem around_eq_intCast [FloorRing α] (x : α) : ∃ n : ℤ, around x = (n : α) := by
  unfold around
  split_ifs
  · exact ⟨⌊x⌋, rfl⟩
  · exact ⟨⌊x⌋ + 1, by push_cast; ring⟩
  · exact ⟨⌊x⌋, rfl⟩
  · exact ⟨⌊x⌋ + 1, by push_cast; ring⟩

theorem roundPrec_fixed [FloorRing α] {p : α} (hp : p ≠ 0) (x : α) :
    roundPrec p (roundPrec p x) = roundPrec p x := by
  unfold roundPrec
  rw [mul_div_assoc, div_self hp, mul_one]
  obtain ⟨n, hn⟩ := around_eq_intCast (x / p)
  rw [hn, around_intCast]

theorem uniqueFirst_nodup {P : Type} [DecidableEq P] (l : List P) :
    (uniqueFirst l).Nodup := by
  induction l using uniqueFirst.induct with
  | case1 => simp [uniqueFirst]
  | case2 x xs ih =>
    rw [uniqueFirst]
    refine List.Nodup.cons ?_ ih
    intro hmem
    have hsub : uniqueFirst (xs.filter (fun y => y ≠ x)) ⊆ xs.filter (fun y => y ≠ x) := by
      clear hmem ih
      generalize xs.filter (fun y => y ≠ x) = l
      induction l using uniqueFirst.induct with
      | case1 => simp [uniqueFirst]
      | case2 z zs ih2 =>
        rw [uniqueFirst]
        intro a ha
        rcases List.mem_cons.1 ha with h | h
        · exact h ▸ List.mem_cons_self _ _
        · exact List.mem_cons_of_mem _ (List.mem_of_mem_filter (ih2 h))
    have := hsub hmem
    have := List.of_mem_filter this
    simp at this

theorem uniqueFirst_subset {P : Type} [DecidableEq P] (l : List P) :
    uniqueFirst l ⊆ l := by
  induction l using uniqueFirst.induct with
  | case1 => simp [uniqueFirst]
  | case2 x xs ih =>
    rw [uniqueFirst]
    intro a ha
    rcases List.mem_cons.1 ha with h | h
    · exact h ▸ List.mem_cons_self _ _
    · exact List.mem_cons_of_mem _ (List.mem_of_mem_filter (ih h))

theorem uniqueFirst_eq_self {P : Type} [DecidableEq P] {l : List P} (h : l.Nodup) :
    uniqueFirst l = l := by
  induction l with
  | nil => simp [uniqueFirst]
  | cons x xs ih =>
    rw [uniqueFirst]
    have hx : x ∉ xs := (List.nodup_cons.1 h).1
    have hfix : xs.filter (fun y => y ≠ x) = xs := by
      apply List.filter_eq_self.2
      intro a ha
      simp only [ne_eq, decide_eq_true_eq]
      exact fun hax => hx (hax ▸ ha)
    rw [hfix, ih (List.nodup_cons.1 h).2]

theorem buildGrid_mem_fixed [FloorRing α] [DecidableEq α] {p : α} (hp : p ≠ 0)
    {data : List (List α)} {y : List α} (hy : y ∈ buildGrid data p) :
    y.map (roundPrec p) = y := by
  have hmem : y ∈ data.map (List.map (roundPrec p)) :=
    uniqueFirst_subset _ hy
  obtain ⟨x, _, hx⟩ := List.mem_map.1 hmem
  subst hx
  rw [List.map_map]
  apply List.map_congr_left
  intro a _
  exact roundPrec_fixed hp a

theorem map_fixed_eq_self {β : Type} {f : β → β} :
    ∀ l : List β, (∀ y ∈ l, f y = y) → l.map f = l := by
  intro l hl
  induction l with
  | nil => rfl
  | cons a l ih =>
    simp only [List.map_cons, hl a (List.mem_cons_self _ _)]
    rw [ih (fun y hy => hl y (List.mem_cons_of_mem _ hy))]

/-- C8: for every input data array and positive precision, the grid returned by
`build_grid` contains no two identical points after re-quantization at the same
precision, and applying `build_grid` again to its own output at the same
precision returns the same points (idempotence). -/
theorem buildGrid_requant_nodup_and_idem [FloorRing α] [DecidableEq α]
    (data : List (List α)) (precision : α) (hp : 0 < precision) :
    ((buildGrid data precision).map (List.map (roundPrec precision))).Nodup ∧
      buildGrid (buildGrid data precision) precision = buildGrid data precision := by
  have hp' : precision ≠ 0 := ne_of_gt hp
  have hmap : (buildGrid data precision).map (List.map (roundPrec precision)) =
      buildGrid data precision :=
    map_fixed_eq_self _ (fun y hy => buildGrid_mem_fixed hp' hy)
  constructor
  · rw [hmap]
    exact uniqueFirst_nodup _
  · show buildGridP _ _ = _
    unfold buildGridP
    rw [hmap]
    exact uniqueFirst_eq_self (uniqueFirst_nodup _)

/-- Witness for C8 at a concrete input. -/
theorem buildGrid_requant_witness :
    (0 : ℚ) < 1 / 10 ∧
      (((buildGrid [[(12 : ℚ) / 10, 2], [(123 : ℚ) / 100, 2], [3, 4]] (1 / 10)).map
          (List.map (roundPrec (1 / 10)))).Nodup ∧
        buildGrid (buildGrid [[(12 : ℚ) / 10, 2], [(123 : ℚ) / 100, 2], [3, 4]] (1 / 10))
            (1 / 10) =
          buildGrid [[(12 : ℚ) / 10, 2], [(123 : ℚ) / 100, 2], [3, 4]] (1 / 10)) :=
  ⟨by norm_num, buildGrid_requant_nodup_and_idem _ _ (by norm_num)⟩

/-- Embedding of `Extinction.__init__`.  The `db` argument and its `assert` are
irrelevant for the modelled behaviour and omitted.  The constructor stores
`error`, replaces a missing error with `np.zeros_like(extinction)`, but the
subsequent length check calls `len` on the ORIGINAL `error` parameter: when it
is `None`, Python raises `TypeError` (`len(None)`). -/
def extinctionInit (extinction : List (Val ℚ)) (error : Option (List (Val ℚ))) :
    Except PyError (List (Val ℚ) × List (Val ℚ)) :=
  let err := match error with
    | none => extinction.map (fun _ => some 0)
    | some e => e
  match error with
  | none => .error .typeError
  | some e =>
      if extinction.length ≠ e.length then .error .valueError
      else .ok (extinction, err)

/-- C9: constructing an `Extinction` result without an explicit error array
always raises a `TypeError`; the zero-filled default is unreachable. -/
theorem extinctionInit_none_typeError (extinction : List (Val ℚ)) :
    extinctionInit extinction none = Except.error PyError.typeError := rfl

/-! ### ExtinctionVector rotation (`ExtinctionVector.get_rotmatrix`) -/

/-- Embedding of `ExtinctionVector.unit_vectors`. -/
def unitVector (n : ℕ) (l : Fin n) : Fin n → ℝ := fun i => if i = l then 1 else 0

/-- `np.outer` of two vectors. -/
def outerProd {n : ℕ} (u v : Fin n → ℝ) : Matrix (Fin n) (Fin n) ℝ :=
  Matrix.of fun i j => u i * v j

/-- One elementary rotation of the loop in `get_rotmatrix`:
`(cos(angle)-1) * (outer(uv[z],uv[z]) + outer(uv[j],uv[j]))
 + sin(angle) * (outer(uv[z],uv[j]) - outer(uv[j],uv[z])) + identity`,
where `z` is the first axis (index 0 in the source). -/
noncomputable def planeRot {n : ℕ} (θ : ℝ) (z j : Fin n) : Matrix (Fin n) (Fin n) ℝ :=
  (Real.cos θ - 1) • (outerProd (unitVector n z) (unitVector n z) +
      outerProd (unitVector n j) (unitVector n j)) +
    Real.sin θ • (outerProd (unitVector n z) (unitVector n j) -
      outerProd (unitVector n j) (unitVector n z)) + 1

/-- The loop of `get_rotmatrix` after `k` iterations: the composition of the
elementary rotations built so far and the partially rotated vector
(`vector_rot` in the source; before the first iteration it is the input
vector itself). -/
noncomputable def rotAux {n : ℕ} (v : Fin n → ℝ) : ℕ → Matrix (Fin n) (Fin n) ℝ × (Fin n → ℝ)
  | 0 => (1, v)
  | k + 1 =>
    let p := rotAux v k
    if h : k + 1 < n then
      let z : Fin n := ⟨0, Nat.lt_of_le_of_lt (Nat.zero_le _) h⟩
      let j : Fin n := ⟨k + 1, h⟩
      let θ := Real.arctan (p.2 j / p.2 z)
      let R := planeRot θ z j
      (R * p.1, R.mulVec p.2)
    else p

/-- The combined rotation matrix: the source composes its `n - 1` elementary
rotations in reverse order, which equals the running product accumulated by
`rotAux` after `n - 1` iterations. -/
noncomputable def rotMatrix {n : ℕ} (v : Fin n → ℝ) : Matrix (Fin n) (Fin n) ℝ :=
  (rotAux v (n - 1)).1

/-- Control flow of `get_rotmatrix`: the `n_dimensions < 2` branch only
CONSTRUCTS `ValueError(...)` without raising it, so execution continues; with
fewer than 2 dimensions, the list `rotmatrices` stays empty and the final
`rotmatrices[-1]` raises `IndexError`. -/
noncomputable def getRotmatrixChecked (n : ℕ) (v : Fin n → ℝ) :
    Except PyError (Matrix (Fin n) (Fin n) ℝ) :=
  if n - 1 = 0 then .error .indexError
  else .ok (rotMatrix v)

theorem outerProd_unitVector {n : ℕ} (a b : Fin n) :
    outerProd (unitVector n a) (unitVector n b) = Matrix.stdBasisMatrix a b 1 := by
  ext i k
  simp only [outerProd, Matrix.of_apply, unitVector, Matrix.stdBasisMatrix]
  by_cases h1 : i = a <;> by_cases h2 : k = b
  · subst h1; subst h2; simp
  · have h2' : ¬b = k := fun h => h2 h.symm
    subst h1; simp [h2, h2']
  · have h1' : ¬a = i := fun h => h1 h.symm
    subst h2; simp [h1, h1']
  · have h1' : ¬a = i := fun h => h1 h.symm
    simp [h1, h2, h1']

theorem planeRot_eq {n : ℕ} (θ : ℝ) (z j : Fin n) :
    planeRot θ z j =
      (Real.cos θ - 1) • (Matrix.stdBasisMatrix z z (1 : ℝ) + Matrix.stdBasisMatrix j j 1) +
        Real.sin θ • (Matrix.stdBasisMatrix z j (1 : ℝ) - Matrix.stdBasisMatrix j z 1) + 1 := by
  unfold planeRot
  rw [outerProd_unitVector, outerProd_unitVector, outerProd_unitVector, outerProd_unitVector]

theorem stdBasis_transpose {n : ℕ} (a b : Fin n) (c : ℝ) :
    (Matrix.stdBasisMatrix a b c)ᵀ = Matrix.stdBasisMatrix b a c := by
  ext i k
  simp only [Matrix.transpose_apply, Matrix.stdBasisMatrix, Matrix.of_apply]
  by_cases h1 : a = k <;> by_cases h2 : b = i <;> simp [h1, h2]

theorem planeRot_mul_transpose {n : ℕ} (θ : ℝ) {z j : Fin n} (hzj : z ≠ j) :
    planeRot θ z j * (planeRot θ z j)ᵀ = 1 := by
  have hjz : j ≠ z := hzj.symm
  rw [planeRot_eq]
  set a := Real.cos θ - 1 with ha
  set b := Real.sin θ with hb
  set P : Matrix (Fin n) (Fin n) ℝ :=
    Matrix.stdBasisMatrix z z (1 : ℝ) + Matrix.stdBasisMatrix j j 1 with hP
  set Q : Matrix (Fin n) (Fin n) ℝ :=
    Matrix.stdBasisMatrix z j (1 : ℝ) - Matrix.stdBasisMatrix j z 1 with hQ
  have hPP : P * P = P := by
    simp only [hP, add_mul, mul_add, Matrix.StdBasisMatrix.mul_same,
      Matrix.StdBasisMatrix.mul_of_ne _ _ _ hzj, Matrix.StdBasisMatrix.mul_of_ne _ _ _ hjz,
      mul_one]
    abel
  have hQQ : Q * Q = -P := by
    simp only [hQ, hP, sub_mul, mul_sub, Matrix.StdBasisMatrix.mul_same,
      Matrix.StdBasisMatrix.mul_of_ne _ _ _ hzj, Matrix.StdBasisMatrix.mul_of_ne _ _ _ hjz,
      mul_one]
    abel
  have hPQ : P * Q = Q := by
    simp only [hP, hQ, add_mul, mul_sub, Matrix.StdBasisMatrix.mul_same,
      Matrix.StdBasisMatrix.mul_of_ne _ _ _ hzj, Matrix.StdBasisMatrix.mul_of_ne _ _ _ hjz,
      mul_one]
    abel
  have hQP : Q * P = Q := by
    simp only [hP, hQ, sub_mul, mul_add, Matrix.StdBasisMatrix.mul_same,
      Matrix.StdBasisMatrix.mul_of_ne _ _ _ hzj, Matrix.StdBasisMatrix.mul_of_ne _ _ _ hjz,
      mul_one]
    abel
  have hPt : Pᵀ = P := by
    simp only [hP, Matrix.transpose_add, stdBasis_transpose]
  have hQt : Qᵀ = -Q := by
    simp only [hQ, Matrix.transpose_sub, stdBasis_transpose]
    abel
  have ht : (a • P + b • Q + 1)ᵀ = a • P + (-b) • Q + 1 := by
    simp only [Matrix.transpose_add, Matrix.transpose_smul, Matrix.transpose_one, hPt, hQt,
      smul_neg, neg_smul]
  rw [ht]
  have key : (a • P + b • Q + 1) * (a • P + (-b) • Q + 1) =
      (a * a + a + a + b * b) • P + (a * -b + b * a + b + -b) • Q + 1 := by
    simp only [add_mul, mul_add, Matrix.smul_mul, Matrix.mul_smul, one_mul, mul_one, smul_smul,
      hPP, hPQ, hQP, hQQ]
    module
  rw [key]
  have hcoef : a * a + a + a + b * b = 0 := by
    have hsc := Real.sin_sq_add_cos_sq θ
    simp only [ha, hb]
    nlinarith [hsc]
  have hcoef2 : a * -b + b * a + b + -b = 0 := by ring
  rw [hcoef, hcoef2]
  simp

theorem stdBasis_mulVec {n : ℕ} (a b : Fin n) (w : Fin n → ℝ) :
    (Matrix.stdBasisMatrix a b (1 : ℝ)).mulVec w = fun i => if i = a then w b else 0 := by
  ext i
  simp only [Matrix.mulVec, Matrix.dotProduct, Matrix.stdBasisMatrix, Matrix.of_apply,
    ite_mul, one_mul, zero_mul]
  by_cases h : i = a
  · subst h
    simp
  · rw [if_neg h]
    apply Finset.sum_eq_zero
    intro x _
    rw [if_neg]
    rintro ⟨h1, -⟩
    exact h h1.symm

theorem planeRot_mulVec {n : ℕ} (θ : ℝ) {z j : Fin n} (hzj : z ≠ j) (w : Fin n → ℝ)
    (i : Fin n) :
    (planeRot θ z j).mulVec w i =
      if i = z then Real.cos θ * w z + Real.sin θ * w j
      else if i = j then -Real.sin θ * w z + Real.cos θ * w j
      else w i := by
  rw [planeRot_eq]
  simp only [Matrix.add_mulVec, Matrix.sub_mulVec, Matrix.smul_mulVec_assoc, Matrix.one_mulVec,
    stdBasis_mulVec, Pi.add_apply, Pi.sub_apply, Pi.smul_apply, smul_eq_mul]
  by_cases h1 : i = z
  · subst h1
    simp only [eq_self_iff_true, if_true, if_neg hzj]
    ring
  · by_cases h2 : i = j
    · subst h2
      simp only [eq_self_iff_true, if_true, if_neg h1]
      ring
    · simp only [if_neg h1, if_neg h2]
      ring

theorem rotAux_invariant {n : ℕ} (v : Fin n → ℝ) (h0 : 0 < n) (hv : v ⟨0, h0⟩ ≠ 0) :
    ∀ k, k < n →
      (rotAux v k).1 * ((rotAux v k).1)ᵀ = 1 ∧
        (rotAux v k).2 = (rotAux v k).1.mulVec v ∧
        (rotAux v k).2 ⟨0, h0⟩ ≠ 0 ∧
        ∀ i : Fin n, 0 < (i : ℕ) → (i : ℕ) ≤ k → (rotAux v k).2 i = 0 := by
  intro k
  induction k with
  | zero =>
    intro _
    refine ⟨by simp [rotAux], by simp [rotAux, Matrix.one_mulVec], hv, ?_⟩
    intro i hi1 hi2
    omega
  | succ k ih =>
    intro hk1
    have hk : k < n := Nat.lt_of_succ_lt hk1
    obtain ⟨hM, hw, hw0, hzero⟩ := ih hk
    set M := (rotAux v k).1 with hMdef
    set w := (rotAux v k).2 with hwdef
    set z : Fin n := ⟨0, h0⟩ with hz
    set j : Fin n := ⟨k + 1, hk1⟩ with hj
    have hzj : z ≠ j := by
      simp only [hz, hj, ne_eq, Fin.mk.injEq]
      omega
    set θ := Real.arctan (w j / w z) with hθ
    have hstep : rotAux v (k + 1) = (planeRot θ z j * M, (planeRot θ z j).mulVec w) := by
      rw [rotAux]
      simp only [dif_pos hk1]
    have hsqrt : Real.sqrt (1 + (w j / w z) ^ 2) ≠ 0 :=
      ne_of_gt (Real.sqrt_pos.2 (by positivity))
    have hcos : Real.cos θ = 1 / Real.sqrt (1 + (w j / w z) ^ 2) := Real.cos_arctan _
    have hsin : Real.sin θ = (w j / w z) / Real.sqrt (1 + (w j / w z) ^ 2) := Real.sin_arctan _
    refine ⟨?_, ?_, ?_, ?_⟩
    · rw [hstep]
      simp only [Matrix.transpose_mul]
      rw [Matrix.mul_assoc, ← Matrix.mul_assoc M, hM, Matrix.one_mul]
      exact planeRot_mul_transpose θ hzj
    · rw [hstep]
      simp only []
      rw [hw, Matrix.mulVec_mulVec]
    · rw [hstep]
      simp only []
      rw [planeRot_mulVec θ hzj, if_pos rfl]
      have hval : Real.cos θ * w z + Real.sin θ * w j =
          (w z ^ 2 + w j ^ 2) / (w z * Real.sqrt (1 + (w j / w z) ^ 2)) := by
        rw [hcos, hsin]
        field_simp
        ring
      rw [hval]
      exact div_ne_zero (by positivity) (mul_ne_zero hw0 hsqrt)
    · intro i hi1 hi2
      rw [hstep]
      simp only []
      rw [planeRot_mulVec θ hzj]
      have hiz : i ≠ z := by
        simp only [hz, ne_eq, Fin.ext_iff]
        omega
      rw [if_neg hiz]
      by_cases hij : i = j
      · rw [if_pos hij]
        have hsc : Real.sin θ * w z = Real.cos θ * w j := by
          rw [hcos, hsin]
          field_simp
          ring
        linarith [hsc]
      · rw [if_neg hij]
        apply hzero i hi1
        have : (i : ℕ) ≠ k + 1 := by
          intro hc
          exact hij (Fin.ext hc)
        omega

/-- C3: for a vector of dimension at least 2 with nonzero first component (so
that no division by zero occurs, the regime in which real arithmetic models the
floating-point code), the matrix built by `get_rotmatrix` is orthogonal and
rotates the vector so that every component except the first is zero. -/
theorem rotMatrix_orthogonal_and_aligns {n : ℕ} (v : Fin n → ℝ) (hn : 2 ≤ n)
    (hv : v ⟨0, by omega⟩ ≠ 0) :
    rotMatrix v * (rotMatrix v)ᵀ = 1 ∧
      ∀ i : Fin n, (i : ℕ) ≠ 0 → (rotMatrix v).mulVec v i = 0 := by
  have h0 : 0 < n := by omega
  obtain ⟨hM, hw, _, hzero⟩ := rotAux_invariant v h0 hv (n - 1) (by omega)
  refine ⟨hM, ?_⟩
  intro i hi
  have hlt := i.isLt
  have hz := hzero i (Nat.pos_of_ne_zero hi) (by omega)
  rw [rotMatrix, ← hw]
  exact hz

/-- Witness for C3: the extinction vector `(1, 1)` in dimension 2. -/
theorem rotMatrix_orthogonal_witness :
    rotMatrix (fun _ : Fin 2 => (1 : ℝ)) * (rotMatrix (fun _ : Fin 2 => (1 : ℝ)))ᵀ = 1 ∧
      ∀ i : Fin 2, (i : ℕ) ≠ 0 →
        (rotMatrix (fun _ : Fin 2 => (1 : ℝ))).mulVec (fun _ => 1) i = 0 :=
  rotMatrix_orthogonal_and_aligns _ (by norm_num) (by norm_num)

/-- C10: with an input vector of dimension below 2, `get_rotmatrix` never
raises the intended `ValueError` (the exception object is built but not
raised); for a 1-dimensional vector it instead fails with `IndexError` when
indexing the empty list of elementary rotations. -/
theorem getRotmatrix_lowdim_behaviour :
    (∀ v : Fin 1 → ℝ, getRotmatrixChecked 1 v = Except.error PyError.indexError) ∧
      ∀ (n : ℕ) (v : Fin n → ℝ), getRotmatrixChecked n v ≠ Except.error PyError.valueError := by
  constructor
  · intro v
    rfl
  · intro n v
    unfold getRotmatrixChecked
    split_ifs
    · simp
    · simp

/-! ### NICER (`Magnitudes.nicer`)

The science/control field has `m + 2` features (the constructor guarantees at
least two), hence `m + 1` consecutive-feature colors. -/

/-- Reddening vector `k`: consecutive differences of the extinction vector. -/
def colorK {m : ℕ} (extvec : Fin (m + 2) → α) : Fin (m + 1) → α :=
  fun i => extvec i.castSucc - extvec i.succ

/-- Consecutive-feature colors `features[l] - features[l+1]` of a field. -/
def fieldColors {m nd : ℕ} (f : Fin (m + 2) → Fin nd → Val α) :
    Fin (m + 1) → Fin nd → Val α :=
  fun i jd => vSub (f i.castSucc jd) (f i.succ jd)

/-- `np.nanmean` of a 1D array: mean of the finite entries, NaN if there are
none. -/
def npNanmeanL (l : List (Val α)) : Val α :=
  let fs := l.filterMap id
  if fs.length = 0 then none else some (fs.sum / fs.length)

/-- Intrinsic colors of the control field (`np.nanmean` per color). -/
def color0 {m nc : ℕ} (c : Fin (m + 1) → Fin nc → Val α) (i : Fin (m + 1)) : Val α :=
  npNanmeanL ((List.finRange nc).map (c i))

/-- Embedding of `np.ma.cov` on the masked control colors: per-row means over
valid entries, products summed over entries valid in both rows, normalized by
the pairwise valid count minus one. -/
def maCov {m nc : ℕ} (c : Fin (m + 1) → Fin nc → Val α) (i j : Fin (m + 1)) : α :=
  let meanRow := fun (r : Fin (m + 1)) =>
    let vs := (List.finRange nc).filterMap (fun t => c r t)
    vs.sum / vs.length
  let validBoth := (List.finRange nc).filter (fun t => (c i t).isSome && (c j t).isSome)
  (validBoth.map (fun t => ((c i t).getD 0 - meanRow i) * ((c j t).getD 0 - meanRow j))).sum /
    ((validBoth.length : α) - 1)

/-- One iteration of the loop that fills the per-source error covariance
`cov_er`: write the diagonal entry `(i, i)` and, for `i > 0`, the two first
off-diagonal entries `(i, i-1)` and `(i-1, i)`. -/
def covErStep {m : ℕ} (e : Fin (m + 2) → Val α) (M : Fin (m + 1) → Fin (m + 1) → Val α)
    (i : Fin (m + 1)) : Fin (m + 1) → Fin (m + 1) → Val α :=
  let d := vAdd (vSq (e i.castSucc)) (vSq (e i.succ))
  let M1 := fun a b => if a = i ∧ b = i then d else M a b
  if 0 < (i : ℕ) then
    let o := vNeg (vSq (e i.castSucc))
    fun a b =>
      if (a = i ∧ (b : ℕ) + 1 = (i : ℕ)) ∨ ((a : ℕ) + 1 = (i : ℕ) ∧ b = i) then o
      else M1 a b
  else M1

/-- The filled error-covariance matrix of one source, before sentinel
replacement (the loop starts from `np.zeros`). -/
def covErRaw {m : ℕ} (e : Fin (m + 2) → Val α) : Fin (m + 1) → Fin (m + 1) → Val α :=
  (List.finRange (m + 1)).foldl (covErStep e) (fun _ _ => some 0)

/-- `cov_er[~np.isfinite(cov_er)] = 1E10`: replace non-finite entries by the
sentinel. -/
def vFix (v : Val α) : α := v.getD (10 ^ 10)

/-- Error covariance of source `jd` after sentinel replacement. -/
def nicerCovEr {m nd : ℕ} (errs : Fin (m + 2) → Fin nd → Val α) (jd : Fin nd)
    (a b : Fin (m + 1)) : α :=
  vFix (covErRaw (fun f => errs f jd) a b)

/-- Which loop iteration (if any) writes the cell `(a, b)` of `cov_er`. -/
def cellOwner {m : ℕ} (a b : Fin (m + 1)) : Option (Fin (m + 1)) :=
  if a = b then some a
  else if (b : ℕ) + 1 = (a : ℕ) then some a
  else if (a : ℕ) + 1 = (b : ℕ) then some b
  else none

/-- The value written into cell `(a, b)` by its owning iteration. -/
def cellVal {m : ℕ} (e : Fin (m + 2) → Val α) (a b : Fin (m + 1)) : Val α :=
  if a = b then vAdd (vSq (e a.castSucc)) (vSq (e a.succ))
  else if (b : ℕ) + 1 = (a : ℕ) then vNeg (vSq (e a.castSucc))
  else vNeg (vSq (e b.castSucc))

theorem covErStep_eq {m : ℕ} (e : Fin (m + 2) → Val α)
    (M : Fin (m + 1) → Fin (m + 1) → Val α) (x a b : Fin (m + 1)) :
    covErStep e M x a b = if cellOwner a b = some x then cellVal e a b else M a b := by
  unfold covErStep cellOwner cellVal
  by_cases h : 0 < (x : ℕ)
  · rw [if_pos h]
    try simp only []
    by_cases hd : a = x ∧ b = x
    · have hxx : ¬((x : ℕ) + 1 = (x : ℕ)) := by omega
      obtain ⟨h1, h2⟩ := hd
      subst h1
      subst h2
      simp [hxx]
    · by_cases hoff : (a = x ∧ (b : ℕ) + 1 = (x : ℕ)) ∨ ((a : ℕ) + 1 = (x : ℕ) ∧ b = x)
      · rw [if_pos hoff]
        rcases hoff with ⟨ha, hb⟩ | ⟨ha, hb⟩
        · subst ha
          have hne : ¬(a = b) := by
            rw [Fin.ext_iff]
            omega
          simp [hne, hb]
        · subst hb
          have hne : ¬(a = b) := by
            rw [Fin.ext_iff]
            omega
          have hne2 : ¬((b : ℕ) + 1 = (a : ℕ)) := by omega
          simp [hne, hne2, ha]
      · rw [if_neg hoff, if_neg hd]
        by_cases h1 : a = b
        · subst h1
          have hax : ¬(a = x) := fun hh => hd ⟨hh, hh⟩
          simp [hax]
        · by_cases h2 : (b : ℕ) + 1 = (a : ℕ)
          · have hax : ¬(a = x) := by
              intro hh
              apply hoff
              left
              refine ⟨hh, ?_⟩
              rw [Fin.ext_iff] at hh
              omega
            simp [h1, h2, hax]
          · by_cases h3 : (a : ℕ) + 1 = (b : ℕ)
            · have hbx : ¬(b = x) := by
                intro hh
                apply hoff
                right
                refine ⟨?_, hh⟩
                rw [Fin.ext_iff] at hh
                omega
              simp [h1, h2, h3, hbx]
            · simp [h1, h2, h3]
  · rw [if_neg h]
    try simp only []
    have hx0 : (x : ℕ) = 0 := by omega
    by_cases hd : a = x ∧ b = x
    · obtain ⟨h1, h2⟩ := hd
      subst h1
      subst h2
      simp
    · rw [if_neg hd]
      by_cases h1 : a = b
      · subst h1
        have hax : ¬(a = x) := fun hh => hd ⟨hh, hh⟩
        simp [hax]
      · by_cases h2 : (b : ℕ) + 1 = (a : ℕ)
        · have hax : ¬(a = x) := by
            intro hh
            rw [Fin.ext_iff] at hh
            omega
          simp [h1, h2, hax]
        · by_cases h3 : (a : ℕ) + 1 = (b : ℕ)
          · have hbx : ¬(b = x) := by
              intro hh
              rw [Fin.ext_iff] at hh
              omega
            simp [h1, h2, h3, hbx]
          · simp [h1, h2, h3]

theorem covEr_foldl_apply {m : ℕ} (e : Fin (m + 2) → Val α) (l : List (Fin (m + 1)))
    (M0 : Fin (m + 1) → Fin (m + 1) → Val α) (a b : Fin (m + 1)) :
    (l.foldl (covErStep e) M0) a b =
      match cellOwner a b with
      | some o => if o ∈ l then cellVal e a b else M0 a b
      | none => M0 a b := by
  induction l generalizing M0 with
  | nil =>
    cases h : cellOwner a b <;> simp [h]
  | cons x l ih =>
    rw [List.foldl_cons, ih]
    rcases ho : cellOwner a b with _ | o
    · rw [covErStep_eq, ho]
      simp
    · simp only [List.mem_cons]
      rw [covErStep_eq, ho]
      by_cases hol : o ∈ l
      · simp [hol]
      · simp only [hol, if_false, or_false]
        by_cases hox : o = x
        · subst hox
          simp
        · have hne : ¬(some o = some x) := by simpa using hox
          simp [hne, hox]

/-- C4: in the NICER estimator, each per-source error covariance matrix has
diagonal entry `(i, i)` equal to the sum of the squared errors of features `i`
and `i+1`, first off-diagonal entries `(i, i-1)` and `(i-1, i)` equal to the
negated squared error of the shared feature `i`, every other entry zero, and
non-finite entries replaced by the sentinel `1e10`. -/
theorem nicerCovEr_entries {m nd : ℕ} (errs : Fin (m + 2) → Fin nd → Val α) (jd : Fin nd)
    (a b : Fin (m + 1)) :
    nicerCovEr errs jd a b =
      if a = b then vFix (vAdd (vSq (errs a.castSucc jd)) (vSq (errs a.succ jd)))
      else if (b : ℕ) + 1 = (a : ℕ) then vFix (vNeg (vSq (errs a.castSucc jd)))
      else if (a : ℕ) + 1 = (b : ℕ) then vFix (vNeg (vSq (errs b.castSucc jd)))
      else 0 := by
  unfold nicerCovEr covErRaw
  rw [covEr_foldl_apply]
  unfold cellOwner cellVal
  split_ifs <;> simp_all [vFix, List.mem_finRange]

/-- `np.linalg.inv` modelled as the adjugate formula (defined on invertible
matrices; `np.linalg.inv` raises on singular input). -/
def npInv {s : ℕ} (M : Matrix (Fin s) (Fin s) α) : Matrix (Fin s) (Fin s) α :=
  (M.det)⁻¹ • M.adjugate

/-- Total per-source covariance of `nicer`: control-field color covariance plus
the sentinel-fixed per-source error covariance. -/
def nicerCov {m nd nc : ℕ} (ctrl : Fin (m + 2) → Fin nc → Val α)
    (errs : Fin (m + 2) → Fin nd → Val α) (jd : Fin nd) :
    Matrix (Fin (m + 1)) (Fin (m + 1)) α :=
  Matrix.of fun a b => maCov (fieldColors ctrl) a b + nicerCovEr errs jd a b

/-- Weight vector `b = cov⁻¹·k / (k·cov⁻¹·k)` of source `jd` (equation 12 of
the NICER paper, as computed by the source). -/
def nicerB {m nd nc : ℕ} (ctrl : Fin (m + 2) → Fin nc → Val α)
    (errs : Fin (m + 2) → Fin nd → Val α) (extvec : Fin (m + 2) → α) (jd : Fin nd)
    (i : Fin (m + 1)) : α :=
  let upper := (npInv (nicerCov ctrl errs jd)).mulVec (colorK extvec)
  upper i / ∑ t, colorK extvec t * upper t

/-- Science colors for all sources: `np.all(np.isnan(scolors), axis=0)`. -/
def badColor {m nd : ℕ} (sci : Fin (m + 2) → Fin nd → Val α) (jd : Fin nd) : Bool :=
  (List.finRange (m + 1)).all fun i => (fieldColors sci i jd).isNone

/-- Science colors after the zero-fill of non-finite entries and the NaN
restore for sources whose colors are all missing. -/
def scolorsFill {m nd : ℕ} (sci : Fin (m + 2) → Fin nd → Val α) (i : Fin (m + 1))
    (jd : Fin nd) : Val α :=
  if badColor sci jd then none else some ((fieldColors sci i jd).getD 0)

/-- Per-source extinction of `nicer` (equation 13 of the NICER paper): the
loop `ext = b[0]·(scolors[0] - color_0[0]); ext += b[i]·(scolors[i] - color_0[i])`. -/
def nicerExt {m nd nc : ℕ} (sci : Fin (m + 2) → Fin nd → Val α)
    (errs : Fin (m + 2) → Fin nd → Val α) (ctrl : Fin (m + 2) → Fin nc → Val α)
    (extvec : Fin (m + 2) → α) (jd : Fin nd) : Val α :=
  ((List.finRange (m + 1)).map fun i =>
      vMul (some (nicerB ctrl errs extvec jd i))
        (vSub (scolorsFill sci i jd) (color0 (fieldColors ctrl) i))).foldr vAdd (some 0)

theorem vAdd_none_left (y : Val α) : vAdd none y = none := by
  cases y <;> rfl

theorem foldr_vAdd_all_none :
    ∀ l : List (Val α), (∀ x ∈ l, x = none) → l ≠ [] → l.foldr vAdd (some 0) = none
  | [], _, hne => absurd rfl hne
  | x :: l, h, _ => by
    rw [List.foldr_cons, h x (List.mem_cons_self _ _), vAdd_none_left]

theorem foldr_vAdd_map_some {β : Type} (g : β → α) :
    ∀ l : List β, (l.map fun i => some (g i)).foldr vAdd (some 0) = some ((l.map g).sum)
  | [] => by simp
  | x :: l => by
    simp only [List.map_cons, List.foldr_cons, foldr_vAdd_map_some g l, List.sum_cons]
    rfl

/-- C5 (amended): a source whose consecutive-feature colors are all missing
gets NaN extinction; for a source with at least one finite color, every
non-finite color enters the weighted sum with its COLOR value replaced by
zero — so the missing term contributes `-bᵢ·(intrinsic color)ᵢ`, not zero. -/
theorem nicerExt_missing_colors {m nd nc : ℕ} (sci errs : Fin (m + 2) → Fin nd → Val α)
    (ctrl : Fin (m + 2) → Fin nc → Val α) (extvec : Fin (m + 2) → α) (jd : Fin nd)
    (c0 : Fin (m + 1) → α) (hc : ∀ i, color0 (fieldColors ctrl) i = some (c0 i)) :
    (badColor sci jd = true → nicerExt sci errs ctrl extvec jd = none) ∧
      (badColor sci jd = false →
        nicerExt sci errs ctrl extvec jd =
          some (∑ i, nicerB ctrl errs extvec jd i *
            ((fieldColors sci i jd).getD 0 - c0 i))) := by
  constructor
  · intro hbad
    unfold nicerExt
    apply foldr_vAdd_all_none
    · intro x hx
      obtain ⟨i, -, hi⟩ := List.mem_map.1 hx
      rw [← hi]
      unfold scolorsFill
      rw [if_pos hbad]
      cases color0 (fieldColors ctrl) i <;> rfl
    · simp
  · intro hgood
    unfold nicerExt
    have hterm : ((List.finRange (m + 1)).map fun i =>
        vMul (some (nicerB ctrl errs extvec jd i))
          (vSub (scolorsFill sci i jd) (color0 (fieldColors ctrl) i))) =
        (List.finRange (m + 1)).map fun i =>
          some (nicerB ctrl errs extvec jd i * ((fieldColors sci i jd).getD 0 - c0 i)) := by
      apply List.map_congr_left
      intro i _
      unfold scolorsFill
      rw [if_neg (by simp [hgood]), hc i]
      rfl
    rw [hterm, foldr_vAdd_map_some, ← List.ofFn_eq_map, List.sum_ofFn]

/-- Concrete three-band science field: one source whose first magnitude is
missing (so its first color is NaN and its second color is `3`). -/
def sciC : Fin 3 → Fin 1 → Val ℚ := fun f _ => ![none, some 10, some 7] f

/-- Concrete per-feature errors of that source. -/
def errC : Fin 3 → Fin 1 → Val ℚ := fun f _ => ![some 0, some 0, some 1] f

/-- Concrete control field with colors `(0,1,2)` and `(5,5,5)`: intrinsic
colors `(1, 5)`, color covariance `[[1,0],[0,0]]`. -/
def ctrlC : Fin 3 → Fin 3 → Val ℚ :=
  fun f => ![![some 5, some 6, some 7], ![some 5, some 5, some 5],
    ![some 0, some 0, some 0]] f

/-- Concrete extinction vector `(2,1,1)`, so the color reddening vector is
`k = (1, 0)`. -/
def evC : Fin 3 → ℚ := ![2, 1, 1]

theorem finRange_two : List.finRange 2 = [0, 1] := by decide

theorem finRange_three : List.finRange 3 = [0, 1, 2] := by decide

theorem ctrlC_color0 : color0 (fieldColors ctrlC) 0 = some 1 := by
  norm_num [color0, npNanmeanL, fieldColors, ctrlC, vSub, finRange_three, List.filterMap]

theorem ctrlC_color1 : color0 (fieldColors ctrlC) 1 = some 5 := by
  norm_num [color0, npNanmeanL, fieldColors, ctrlC, vSub, finRange_three, List.filterMap]

theorem maCovC : ∀ a b : Fin 2, maCov (fieldColors ctrlC) a b = ![![1, 0], ![0, 0]] a b := by
  intro a b
  fin_cases a <;> fin_cases b <;>
    norm_num [maCov, fieldColors, ctrlC, vSub, finRange_three, List.filterMap, List.filter]

theorem covErC : ∀ a b : Fin 2,
    nicerCovEr errC (0 : Fin 1) a b = ![![0, 0], ![0, 1]] a b := by
  intro a b
  fin_cases a <;> fin_cases b <;>
    norm_num [nicerCovEr, covErRaw, (show List.finRange (1 + 1) = [0, 1] from finRange_two),
      List.foldl_cons, List.foldl_nil, covErStep_eq, cellOwner, cellVal,
      vFix, vAdd, vSq, vNeg, errC, Fin.ext_iff]

theorem nicerCovC : nicerCov ctrlC errC 0 = 1 := by
  ext a b
  rw [nicerCov]
  show maCov (fieldColors ctrlC) a b + nicerCovEr errC 0 a b = _
  rw [maCovC, covErC]
  fin_cases a <;> fin_cases b <;> norm_num [Matrix.one_apply, Fin.ext_iff]

theorem nicerB0 : nicerB ctrlC errC evC 0 0 = 1 := by
  unfold nicerB
  rw [nicerCovC]
  norm_num [npInv, Matrix.det_one, Matrix.adjugate_one, Matrix.one_mulVec,
    Fin.sum_univ_succ, Fin.sum_univ_one, colorK, evC, Fin.succ_zero_eq_one,
    Fin.succ_one_eq_two]

theorem nicerB1 : nicerB ctrlC errC evC 0 1 = 0 := by
  unfold nicerB
  rw [nicerCovC]
  norm_num [npInv, Matrix.det_one, Matrix.adjugate_one, Matrix.one_mulVec,
    Fin.sum_univ_succ, Fin.sum_univ_one, colorK, evC, Fin.succ_zero_eq_one,
    Fin.succ_one_eq_two]

theorem badColorC : badColor sciC 0 = false := by
  norm_num [badColor, fieldColors, sciC, vSub,
    (show List.finRange (1 + 1) = [0, 1] from finRange_two)]

theorem sciC_fill0 : scolorsFill sciC 0 0 = some 0 := by
  norm_num [scolorsFill, badColorC, fieldColors, sciC, vSub, Fin.succ_zero_eq_one]

theorem sciC_fill1 : scolorsFill sciC 1 0 = some 3 := by
  norm_num [scolorsFill, badColorC, fieldColors, sciC, vSub, Fin.succ_one_eq_two,
    Fin.castSucc_one]

theorem nicerExtC : nicerExt sciC errC ctrlC evC 0 = some (-1) := by
  unfold nicerExt
  rw [(show List.finRange (1 + 1) = [0, 1] from finRange_two)]
  simp only [List.map_cons, List.map_nil, List.foldr_cons, List.foldr_nil]
  rw [sciC_fill0, sciC_fill1, ctrlC_color0, ctrlC_color1, nicerB0, nicerB1]
  norm_num [vMul, vSub, vAdd]

/-- C5 counterexample: in this concrete instance the source's first color is
missing and its only finite color contributes exactly `0` to the weighted sum,
yet the total extinction is `-1`: the missing color is zero-FILLED, so its term
contributes `-b₀·(intrinsic color)₀ = -1` rather than zero. -/
theorem nicer_missing_zero_contribution_false :
    fieldColors sciC 0 (0 : Fin 1) = none ∧
      vMul (some (nicerB ctrlC errC evC 0 1))
          (vSub (scolorsFill sciC 1 0) (color0 (fieldColors ctrlC) 1)) = some 0 ∧
      nicerExt sciC errC ctrlC evC 0 = some (-1) := by
  refine ⟨?_, ?_, nicerExtC⟩
  · norm_num [fieldColors, sciC, vSub, Fin.succ_zero_eq_one]
  · rw [nicerB1, sciC_fill1, ctrlC_color1]
    norm_num [vMul, vSub]

/-- Witness for C5 (amended) at the concrete instance. -/
theorem nicerExt_missing_colors_witness :
    (badColor sciC 0 = true → nicerExt sciC errC ctrlC evC 0 = none) ∧
      (badColor sciC 0 = false →
        nicerExt sciC errC ctrlC evC 0 =
          some (∑ i, nicerB ctrlC errC evC 0 i *
            ((fieldColors sciC i 0).getD 0 - ![1, 5] i))) :=
  nicerExt_missing_colors sciC errC ctrlC evC 0 ![1, 5]
    (by
      intro i
      fin_cases i
      · simpa using ctrlC_color0
      · simpa using ctrlC_color1)

/-! ### PNICER combination selection (`DataBase._pnicer_combinations`) -/

/-- `np.nanmax` of a (flattened) array: largest finite entry, NaN if none. -/
def npNanmax (l : List (Val α)) : Val α := (l.filterMap id).max?

/-- The sentinel `100 * np.nanmax(all_exterr)`. -/
def errSentinel (errM : List (List (Val α))) : Val α :=
  (npNanmax errM.flatten).map fun x => 100 * x

/-- `all_exterr[~np.isfinite(all_exterr)] = 100 * np.nanmax(all_exterr)`. -/
def replaceErr (errM : List (List (Val α))) : List (List (Val α)) :=
  errM.map (List.map fun v =>
    match v with
    | some a => some a
    | none => errSentinel errM)

/-- Column `j` of a stacked (combinations × sources) array. -/
def colJ (M : List (List (Val α))) (j : ℕ) : List (Val α) :=
  M.map fun row => row.getD j none

/-- `np.argmin`: the index of the first NaN when one is present (NaN poisons
numpy comparisons), otherwise the first index attaining the minimum. -/
def npArgmin (l : List (Val α)) : ℕ :=
  match l.findIdx? (fun v => v.isNone) with
  | some i => i
  | none =>
    match (l.filterMap id).min? with
    | some m => l.findIdx (fun v => v == some m)
    | none => 0

/-- Lines 300-305 of `_pnicer_combinations`: replace non-finite errors with the
sentinel, select per source the combination with the `argmin` error, read both
stacked arrays at that row, then NaN out entries whose selected error exceeds
10. -/
def pnicerSelect (extM errM : List (List (Val α))) (nd : ℕ) :
    List (Val α) × List (Val α) :=
  let errR := replaceErr errM
  let res := (List.range nd).map fun j =>
    let c := npArgmin (colJ errR j)
    let x := (extM.getD c []).getD j none
    let e := (errR.getD c []).getD j none
    if (match e with | some v => decide (10 < v) | none => false) then (none, none)
    else (x, e)
  (res.map Prod.fst, res.map Prod.snd)

theorem foldl_min_mem (x : α) (xs : List α) :
    xs.foldl min x = x ∨ xs.foldl min x ∈ xs := by
  induction xs generalizing x with
  | nil => left; rfl
  | cons y ys ih =>
    rw [List.foldl_cons]
    rcases ih (min x y) with h | h
    · rcases min_choice x y with h2 | h2
      · left; rw [h, h2]
      · right; rw [h, h2]; exact List.mem_cons_self _ _
    · right; exact List.mem_cons_of_mem _ h

theorem foldl_min_le (x : α) (xs : List α) :
    xs.foldl min x ≤ x ∧ ∀ b ∈ xs, xs.foldl min x ≤ b := by
  induction xs generalizing x with
  | nil => exact ⟨le_refl x, by simp⟩
  | cons y ys ih =>
    rw [List.foldl_cons]
    obtain ⟨h1, h2⟩ := ih (min x y)
    refine ⟨le_trans h1 (min_le_left _ _), ?_⟩
    intro b hb
    rcases List.mem_cons.1 hb with rfl | hb
    · exact le_trans h1 (min_le_right _ _)
    · exact h2 b hb

theorem min?_spec {l : List α} {m : α} (h : l.min? = some m) :
    m ∈ l ∧ ∀ b ∈ l, m ≤ b := by
  cases l with
  | nil => simp [List.min?] at h
  | cons x xs =>
    rw [List.min?] at h
    injection h with h
    subst h
    constructor
    · rcases foldl_min_mem x xs with h2 | h2
      · rw [h2]; exact List.mem_cons_self _ _
      · exact List.mem_cons_of_mem _ h2
    · intro b hb
      rcases List.mem_cons.1 hb with rfl | hb
      · exact (foldl_min_le b xs).1
      · exact (foldl_min_le x xs).2 b hb

theorem foldl_max_mem (x : α) (xs : List α) :
    xs.foldl max x = x ∨ xs.foldl max x ∈ xs := by
  induction xs generalizing x with
  | nil => left; rfl
  | cons y ys ih =>
    rw [List.foldl_cons]
    rcases ih (max x y) with h | h
    · rcases max_choice x y with h2 | h2
      · left; rw [h, h2]
      · right; rw [h, h2]; exact List.mem_cons_self _ _
    · right; exact List.mem_cons_of_mem _ h

theorem foldl_max_ge (x : α) (xs : List α) :
    x ≤ xs.foldl max x ∧ ∀ b ∈ xs, b ≤ xs.foldl max x := by
  induction xs generalizing x with
  | nil => exact ⟨le_refl x, by simp⟩
  | cons y ys ih =>
    rw [List.foldl_cons]
    obtain ⟨h1, h2⟩ := ih (max x y)
    refine ⟨le_trans (le_max_left _ _) h1, ?_⟩
    intro b hb
    rcases List.mem_cons.1 hb with rfl | hb
    · exact le_trans (le_max_right _ _) h1
    · exact h2 b hb

theorem max?_spec {l : List α} {m : α} (h : l.max? = some m) :
    m ∈ l ∧ ∀ b ∈ l, b ≤ m := by
  cases l with
  | nil => simp [List.max?] at h
  | cons x xs =>
    rw [List.max?] at h
    injection h with h
    subst h
    constructor
    · rcases foldl_max_mem x xs with h2 | h2
      · rw [h2]; exact List.mem_cons_self _ _
      · exact List.mem_cons_of_mem _ h2
    · intro b hb
      rcases List.mem_cons.1 hb with rfl | hb
      · exact (foldl_max_ge b xs).1
      · exact (foldl_max_ge x xs).2 b hb

theorem colJ_getD {M : List (List (Val α))} {j k : ℕ} (hk : k < M.length) :
    (colJ M j).getD k none = (M.getD k []).getD j none := by
  unfold colJ
  rw [List.getD_eq_getElem?_getD, List.getElem?_map, List.getElem?_eq_getElem hk]
  rw [List.getD_eq_getElem?_getD (l := M), List.getElem?_eq_getElem hk]
  rfl

theorem replaceErr_getD {errM : List (List (Val α))} {k : ℕ} (hk : k < errM.length) :
    (replaceErr errM).getD k [] =
      (errM.getD k []).map fun v =>
        match v with
        | some a => some a
        | none => errSentinel errM := by
  unfold replaceErr
  have hk2 : k < errM.length := hk
  rw [List.getD_eq_getElem?_getD, List.getElem?_map, List.getElem?_eq_getElem hk2]
  rw [List.getD_eq_getElem?_getD (l := errM), List.getElem?_eq_getElem hk2]
  rfl

theorem replaceErr_entry {errM : List (List (Val α))} {nd j k : ℕ}
    (hrect : ∀ r ∈ errM, r.length = nd) (hj : j < nd) (hk : k < errM.length) :
    (colJ (replaceErr errM) j).getD k none =
      match (errM.getD k []).getD j none with
      | some a => some a
      | none => errSentinel errM := by
  have hlen : (replaceErr errM).length = errM.length := List.length_map _ _
  rw [colJ_getD (by rw [hlen]; exact hk), replaceErr_getD hk]
  have hrow : j < (errM.getD k []).length := by
    rw [hrect (errM.getD k []) ?_]
    · exact hj
    · rw [List.getD_eq_getElem?_getD, List.getElem?_eq_getElem hk]
      exact List.getElem_mem _
  rw [List.getD_eq_getElem?_getD, List.getElem?_map, List.getElem?_eq_getElem hrow]
  rw [List.getD_eq_getElem?_getD (l := errM.getD k []), List.getElem?_eq_getElem hrow]
  rfl

theorem colJ_entries_some {errM : List (List (Val α))} {nd j : ℕ}
    (hrect : ∀ r ∈ errM, r.length = nd) (hj : j < nd)
    (hfin : ∃ r ∈ errM, ∃ v ∈ r, v ≠ none) :
    ∀ k, k < errM.length → ∃ w : α, (colJ (replaceErr errM) j).getD k none = some w := by
  have hsent : ∃ s : α, errSentinel errM = some s := by
    obtain ⟨r, hr, v, hv, hvne⟩ := hfin
    obtain ⟨a, rfl⟩ := Option.ne_none_iff_exists'.1 hvne
    have hmem : a ∈ errM.flatten.filterMap id :=
      List.mem_filterMap.2 ⟨some a, List.mem_flatten_of_mem hr hv, rfl⟩
    rcases hmax : (errM.flatten.filterMap id).max? with _ | Mx
    · rw [List.max?_eq_none_iff] at hmax
      rw [hmax] at hmem
      simp at hmem
    · refine ⟨100 * Mx, ?_⟩
      rw [errSentinel, npNanmax, hmax]
      rfl
  intro k hk
  rw [replaceErr_entry hrect hj hk]
  rcases (errM.getD k []).getD j none with _ | a
  · obtain ⟨s, hs⟩ := hsent
    exact ⟨s, hs⟩
  · exact ⟨a, rfl⟩

theorem mem_colJ_some {M : List (List (Val α))} {j : ℕ} {x : Val α}
    (hx : x ∈ colJ M j) : ∃ k, k < M.length ∧ (colJ M j).getD k none = x := by
  obtain ⟨k, hk, hval⟩ := List.getElem_of_mem hx
  have hk' : k < M.length := by
    have := hk
    rwa [colJ, List.length_map] at this
  refine ⟨k, hk', ?_⟩
  rw [List.getD_eq_getElem?_getD, List.getElem?_eq_getElem hk, hval]
  rfl

theorem argmin_replaced_spec (errM : List (List (Val α))) (nd j : ℕ)
    (hj : j < nd) (hne : errM ≠ []) (hrect : ∀ r ∈ errM, r.length = nd)
    (hfin : ∃ r ∈ errM, ∃ v ∈ r, v ≠ none) :
    ∃ m : α,
      npArgmin (colJ (replaceErr errM) j) < errM.length ∧
      (colJ (replaceErr errM) j).getD (npArgmin (colJ (replaceErr errM) j)) none = some m ∧
      ∀ k, k < errM.length → ∀ w : α,
        (colJ (replaceErr errM) j).getD k none = some w → m ≤ w := by
  have hsome := colJ_entries_some hrect hj hfin
  set col := colJ (replaceErr errM) j with hcol
  have hlenc : col.length = errM.length := by
    rw [hcol, colJ, List.length_map, replaceErr, List.length_map]
  have hnonone : ∀ x ∈ col, x.isNone = false := by
    intro x hx
    obtain ⟨k, hk, hval⟩ := mem_colJ_some hx
    have hk2 : k < errM.length := by simpa [replaceErr] using hk
    obtain ⟨w, hw⟩ := hsome k hk2
    rw [hval] at hw
    rw [hw]
    rfl
  have hfind : col.findIdx? (fun v => v.isNone) = none :=
    List.findIdx?_eq_none_iff.2 (fun x hx => hnonone x hx)
  have hcolne : col ≠ [] := by
    intro hcontra
    apply hne
    have h0 : errM.length = 0 := by
      rw [← hlenc, hcontra]
      rfl
    exact List.length_eq_zero.1 h0
  have hvsne : col.filterMap id ≠ [] := by
    obtain ⟨x, hx⟩ := List.exists_mem_of_ne_nil col hcolne
    obtain ⟨k, hk, hval⟩ := mem_colJ_some hx
    have hk2 : k < errM.length := by simpa [replaceErr] using hk
    obtain ⟨w, hw⟩ := hsome k hk2
    rw [hval] at hw
    clear hk
    intro hcontra
    have : w ∈ col.filterMap id := List.mem_filterMap.2 ⟨x, hx, by rw [hw]; rfl⟩
    rw [hcontra] at this
    simp at this
  obtain ⟨m, hm⟩ : ∃ m : α, (col.filterMap id).min? = some m := by
    rcases hmin : (col.filterMap id).min? with _ | m
    · rw [List.min?_eq_none_iff] at hmin
      exact absurd hmin hvsne
    · exact ⟨m, rfl⟩
  obtain ⟨hmm, hmle⟩ := min?_spec hm
  have hargmin : npArgmin col = col.findIdx (fun v => v == some m) := by
    rw [npArgmin, hfind, hm]
  have hmemcol : some m ∈ col := by
    obtain ⟨x, hx, hid⟩ := List.mem_filterMap.1 hmm
    cases x with
    | none => simp at hid
    | some a =>
      obtain rfl : a = m := by simpa using hid
      exact hx
  have hex : ∃ x ∈ col, (x == some m) = true := ⟨some m, hmemcol, by simp⟩
  have hclt : col.findIdx (fun v => v == some m) < col.length :=
    List.findIdx_lt_length_of_exists hex
  have hcval : col.getD (col.findIdx (fun v => v == some m)) none = some m := by
    rw [List.getD_eq_getElem?_getD, List.getElem?_eq_getElem hclt]
    have := @List.findIdx_getElem _ (fun v => v == some m) col hclt
    simpa using this
  refine ⟨m, by rw [← hlenc, hargmin]; exact hclt, by rw [hargmin]; exact hcval, ?_⟩
  intro k hk w hw
  apply hmle
  apply List.mem_filterMap.2
  refine ⟨some w, ?_, rfl⟩
  rw [← hw]
  rw [List.getD_eq_getElem?_getD, List.getElem?_eq_getElem (by rw [hlenc]; exact hk)]
  exact List.getElem_mem _

/-- C2: per source, the extinction and error reported by
`_pnicer_combinations` come from the combination whose sentinel-replaced error
is minimal, and a selected error above 10 turns both outputs into NaN. -/
theorem pnicerSelect_spec (extM errM : List (List (Val α))) (nd j : ℕ)
    (hj : j < nd) (hne : errM ≠ [])
    (hrect : ∀ r ∈ errM, r.length = nd)
    (hfin : ∃ r ∈ errM, ∃ v ∈ r, v ≠ none) :
    ∃ (c : ℕ) (v : α),
      c = npArgmin (colJ (replaceErr errM) j) ∧
      c < errM.length ∧
      (colJ (replaceErr errM) j).getD c none = some v ∧
      (∀ k, k < errM.length → ∀ w : α,
        (colJ (replaceErr errM) j).getD k none = some w → v ≤ w) ∧
      (pnicerSelect extM errM nd).1.length = nd ∧
      (pnicerSelect extM errM nd).2.length = nd ∧
      (pnicerSelect extM errM nd).1.getD j none =
        (if 10 < v then none else (extM.getD c []).getD j none) ∧
      (pnicerSelect extM errM nd).2.getD j none =
        (if 10 < v then none else some v) := by
  obtain ⟨m, hlt, hval, hmin⟩ := argmin_replaced_spec errM nd j hj hne hrect hfin
  have hlenR : (replaceErr errM).length = errM.length := by
    rw [replaceErr]
    exact List.length_map _ _
  have he : ((replaceErr errM).getD (npArgmin (colJ (replaceErr errM) j)) []).getD j none =
      some m := by
    rw [← colJ_getD (by rw [hlenR]; exact hlt)]
    exact hval
  refine ⟨npArgmin (colJ (replaceErr errM) j), m, rfl, hlt, hval, hmin, ?_, ?_, ?_, ?_⟩
  · simp [pnicerSelect]
  · simp [pnicerSelect]
  · simp only [pnicerSelect]
    rw [List.getD_eq_getElem?_getD]
    simp only [List.getElem?_map, List.getElem?_range hj, Option.map_some', Option.getD_some]
    rw [he]
    by_cases h10 : 10 < m
    · simp [h10]
    · simp [h10]
  · simp only [pnicerSelect]
    rw [List.getD_eq_getElem?_getD]
    simp only [List.getElem?_map, List.getElem?_range hj, Option.map_some', Option.getD_some]
    rw [he]
    by_cases h10 : 10 < m
    · simp [h10]
    · simp [h10]

/-- Witness for C2 at a concrete input. -/
theorem pnicerSelect_spec_witness :
    ∃ (c : ℕ) (v : ℚ),
      c = npArgmin (colJ (replaceErr ([[some 2], [none]] : List (List (Val ℚ)))) 0) ∧
      c < ([[some 2], [none]] : List (List (Val ℚ))).length ∧
      (colJ (replaceErr ([[some 2], [none]] : List (List (Val ℚ)))) 0).getD c none = some v ∧
      (∀ k, k < ([[some 2], [none]] : List (List (Val ℚ))).length → ∀ w : ℚ,
        (colJ (replaceErr ([[some 2], [none]] : List (List (Val ℚ)))) 0).getD k none = some w →
          v ≤ w) ∧
      (pnicerSelect ([[some 5], [some 7]] : List (List (Val ℚ))) [[some 2], [none]] 1).1.length
          = 1 ∧
      (pnicerSelect ([[some 5], [some 7]] : List (List (Val ℚ))) [[some 2], [none]] 1).2.length
          = 1 ∧
      (pnicerSelect ([[some 5], [some 7]] : List (List (Val ℚ))) [[some 2], [none]] 1).1.getD
          0 none =
        (if 10 < v then none
          else (([[some 5], [some 7]] : List (List (Val ℚ))).getD c []).getD 0 none) ∧
      (pnicerSelect ([[some 5], [some 7]] : List (List (Val ℚ))) [[some 2], [none]] 1).2.getD
          0 none =
        (if 10 < v then none else some v) :=
  pnicerSelect_spec ([[some 5], [some 7]] : List (List (Val ℚ)))
    ([[some 2], [none]] : List (List (Val ℚ))) 1 0 (by norm_num)
    (by simp)
    (by
      intro r hr
      simp only [List.mem_cons, List.not_mem_nil, or_false] at hr
      rcases hr with rfl | rfl <;> rfl)
    ⟨[some 2], by simp, some 2, by simp, by simp⟩

/-- C6 (amended): every non-finite error is replaced by `100 ×` the maximum
finite error over all combinations and sources; PROVIDED that maximum is
positive, the minimum-error selection never picks a combination whose error
was originally non-finite when the source has a finite-error combination. -/
theorem pnicerSelect_sentinel_loses (errM : List (List (Val α))) (nd j : ℕ)
    (hrect : ∀ r ∈ errM, r.length = nd) (hj : j < nd)
    (Mx : α) (hM : npNanmax errM.flatten = some Mx) (hMpos : 0 < Mx)
    (hcol : ∃ k, k < errM.length ∧ (errM.getD k []).getD j none ≠ none) :
    (∀ k, k < errM.length → (errM.getD k []).getD j none = none →
        (colJ (replaceErr errM) j).getD k none = some (100 * Mx)) ∧
      (errM.getD (npArgmin (colJ (replaceErr errM) j)) []).getD j none ≠ none := by
  have hsent : errSentinel errM = some (100 * Mx) := by
    rw [errSentinel, hM]
    rfl
  have hmemrow : ∀ k, k < errM.length → errM.getD k [] ∈ errM := by
    intro k hk
    rw [List.getD_eq_getElem?_getD, List.getElem?_eq_getElem hk]
    exact List.getElem_mem _
  have hrowlen : ∀ k, k < errM.length → j < (errM.getD k []).length := by
    intro k hk
    rw [hrect _ (hmemrow k hk)]
    exact hj
  have hentrymem : ∀ k, (hk : k < errM.length) →
      (errM.getD k []).getD j none ∈ errM.getD k [] := by
    intro k hk
    rw [List.getD_eq_getElem?_getD (l := errM.getD k []),
      List.getElem?_eq_getElem (hrowlen k hk)]
    exact List.getElem_mem _
  have hfin : ∃ r ∈ errM, ∃ v ∈ r, v ≠ none := by
    obtain ⟨k, hk, hkne⟩ := hcol
    exact ⟨errM.getD k [], hmemrow k hk, (errM.getD k []).getD j none, hentrymem k hk, hkne⟩
  have hne : errM ≠ [] := by
    obtain ⟨k, hk, -⟩ := hcol
    intro hc
    rw [hc] at hk
    simp at hk
  constructor
  · intro k hk hnone
    rw [replaceErr_entry hrect hj hk, hnone]
    exact hsent
  · obtain ⟨m, hlt, hval, hmin⟩ := argmin_replaced_spec errM nd j hj hne hrect hfin
    obtain ⟨k0, hk0, hk0ne⟩ := hcol
    obtain ⟨w0, hw0⟩ := Option.ne_none_iff_exists'.1 hk0ne
    have hrep0 : (colJ (replaceErr errM) j).getD k0 none = some w0 := by
      rw [replaceErr_entry hrect hj hk0, hw0]
    have hmw0 : m ≤ w0 := hmin k0 hk0 w0 hrep0
    have hw0le : w0 ≤ Mx := by
      have hM2 : (errM.flatten.filterMap id).max? = some Mx := hM
      refine (max?_spec hM2).2 w0 ?_
      apply List.mem_filterMap.2
      refine ⟨some w0, ?_, rfl⟩
      rw [← hw0]
      exact List.mem_flatten_of_mem (hmemrow k0 hk0) (hentrymem k0 hk0)
    intro hcontra
    have hsel : (colJ (replaceErr errM) j).getD (npArgmin (colJ (replaceErr errM) j)) none =
        some (100 * Mx) := by
      rw [replaceErr_entry hrect hj hlt, hcontra]
      exact hsent
    rw [hval] at hsel
    injection hsel with heq
    nlinarith [hMpos, hmw0, hw0le]

/-- Witness for C6 (amended) at a concrete input. -/
theorem pnicerSelect_sentinel_loses_witness :
    (∀ k, k < ([[none], [some 2]] : List (List (Val ℚ))).length →
        (([[none], [some 2]] : List (List (Val ℚ))).getD k []).getD 0 none = none →
        (colJ (replaceErr ([[none], [some 2]] : List (List (Val ℚ)))) 0).getD k none =
          some (100 * 2)) ∧
      (([[none], [some 2]] : List (List (Val ℚ))).getD
          (npArgmin (colJ (replaceErr ([[none], [some 2]] : List (List (Val ℚ)))) 0)) []).getD
          0 none ≠ none :=
  pnicerSelect_sentinel_loses ([[none], [some 2]] : List (List (Val ℚ))) 1 0
    (by
      intro r hr
      simp only [List.mem_cons, List.not_mem_nil, or_false] at hr
      rcases hr with rfl | rfl <;> rfl)
    (by norm_num) 2
    (by norm_num [npNanmax, List.max?, List.filterMap])
    (by norm_num)
    ⟨1, by norm_num, by simp⟩

/-- C6 counterexample: with stacked errors `[[NaN], [0]]` the maximum finite
error is `0`, so the sentinel is `100·0 = 0`; `argmin` then selects
combination 0 — whose error was originally non-finite — although combination 1
has a finite error, and `_pnicer_combinations` reports combination 0's
extinction. -/
theorem pnicer_sentinel_selected_counterexample :
    errSentinel ([[none], [some 0]] : List (List (Val ℚ))) = some 0 ∧
      npArgmin (colJ (replaceErr ([[none], [some 0]] : List (List (Val ℚ)))) 0) = 0 ∧
      (([[none], [some 0]] : List (List (Val ℚ))).getD 0 []).getD 0 none = none ∧
      (([[none], [some 0]] : List (List (Val ℚ))).getD 1 []).getD 0 none = some 0 ∧
      pnicerSelect ([[some 1], [some 2]] : List (List (Val ℚ))) [[none], [some 0]] 1 =
        ([some 1], [some 0]) := by
  norm_num [errSentinel, npNanmax, npArgmin, replaceErr, colJ, pnicerSelect,
    List.max?, List.min?, List.filterMap, List.findIdx?, List.findIdx, List.findIdx.go,
    List.range_succ, Option.isNone, Option.some_ne_none]

/-! ### Extinction map pixels (`get_extinction_pixel`) -/

/-- numpy boolean-mask selection `arr[mask]` for equal-length mask and array. -/
def maskFilter {β : Type} (mask : List Bool) (l : List β) : List β :=
  ((mask.zip l).filter (fun p => p.1)).map (fun p => p.2)

/-- Indices of the `True` entries of a boolean mask. -/
def trueIdx (mask : List Bool) : List ℕ :=
  (mask.enum.filter (fun p => p.2)).map (fun p => p.1)

/-- Old-numpy semantics of `arr[mask]` when the boolean mask is SHORTER than
the array (in the source `ext_err` is not box-prefiltered, so the distance
mask it is indexed with has only the box-filtered length; numpy of that era
converted the mask with `nonzero` and used the `True` positions as integer
indices into the full array). -/
def shortMaskIndex (mask : List Bool) (l : List (Val ℝ)) : List (Val ℝ) :=
  (trueIdx mask).map (fun i => l.getD i none)

/-- The truncation factor: the spatial truncation radius is
`trunc * bandwidth`. -/
def truncFactor (method : String) : ℝ :=
  if method = "average" ∨ method = "median" then 1 else 3

/-- Great-circle distance in degrees between grid point `(xg, yg)` and source
`(x, y)`, as computed in the source. -/
noncomputable def sphericalDist (xg yg x y : ℝ) : ℝ :=
  Real.arccos (Real.sin (y * Real.pi / 180) * Real.sin (yg * Real.pi / 180) +
      Real.cos (y * Real.pi / 180) * Real.cos (yg * Real.pi / 180) *
        Real.cos ((x - xg) * Real.pi / 180)) * 180 / Real.pi

/-- `np.nanmedian`: median of the finite entries, NaN when there are none. -/
noncomputable def npNanmedian (l : List (Val ℝ)) : Val ℝ :=
  let fs := (l.filterMap id).mergeSort (fun a b => decide (a ≤ b))
  if fs.length = 0 then none
  else if fs.length % 2 = 1 then some (fs.getD (fs.length / 2) 0)
  else some ((fs.getD (fs.length / 2 - 1) 0 + fs.getD (fs.length / 2) 0) / 2)

/-- Bounding-box pre-filter mask of `get_extinction_pixel`. -/
noncomputable def pixelBoxMask (xg yg bw : ℝ) (method : String) (xd yd : List ℝ) : List Bool :=
  (xd.zip yd).map fun p =>
    decide (xg - truncFactor method * bw < p.1) &&
      decide (p.1 < xg + truncFactor method * bw) &&
      decide (yg - truncFactor method * bw < p.2) &&
      decide (p.2 < yg + truncFactor method * bw)

/-- Great-circle distances of the box survivors. -/
noncomputable def pixelDis (xg yg bw : ℝ) (method : String) (xd yd : List ℝ) : List ℝ :=
  ((maskFilter (pixelBoxMask xg yg bw method xd yd) xd).zip
      (maskFilter (pixelBoxMask xg yg bw method xd yd) yd)).map
    fun p => sphericalDist xg yg p.1 p.2

/-- Distance-cut mask (`dis < trunc * bandwidth`) over the box survivors. -/
noncomputable def pixelDmask (xg yg bw : ℝ) (method : String) (xd yd : List ℝ) :
    List Bool :=
  (pixelDis xg yg bw method xd yd).map fun d => decide (d < truncFactor method * bw)

/-- Extinction values surviving both spatial cuts. -/
noncomputable def pixelExt2 (xg yg bw : ℝ) (method : String) (xd yd : List ℝ)
    (ext : List (Val ℝ)) : List (Val ℝ) :=
  maskFilter (pixelDmask xg yg bw method xd yd)
    (maskFilter (pixelBoxMask xg yg bw method xd yd) ext)

/-- Distances surviving the distance cut. -/
noncomputable def pixelDis2 (xg yg bw : ℝ) (method : String) (xd yd : List ℝ) : List ℝ :=
  maskFilter (pixelDmask xg yg bw method xd yd) (pixelDis xg yg bw method xd yd)

/-- Embedding of `get_extinction_pixel`. -/
noncomputable def getExtinctionPixel (xg yg : ℝ) (xd yd : List ℝ)
    (ext ext_err : List (Val ℝ)) (bw : ℝ) (method : String) (nicest : Bool) :
    Except PyError (Val ℝ × Val ℝ × ℕ) :=
  let bmask := pixelBoxMask xg yg bw method xd yd
  let dmask := pixelDmask xg yg bw method xd yd
  let dis2 := pixelDis2 xg yg bw method xd yd
  let ext2 := pixelExt2 xg yg bw method xd yd ext
  if bmask.count true = 0 then .ok (none, none, 0)
  else
    let ext_err2 := shortMaskIndex dmask ext_err
    let npixel := dmask.count true
    if npixel = 0 ∨ ext2.countP (fun v => v.isSome) < 2 then .ok (none, none, npixel)
    else if method = "average" then .ok (npNanmeanL ext2, none, npixel)
    else if method = "median" then .ok (npNanmedian ext2, none, npixel)
    else
      match (if method = "uniform" then some (dis2.map fun _ => (1 : ℝ))
        else if method = "triangular" then some (dis2.map fun d => 1 - |d / bw|)
        else if method = "gaussian" then
          some (dis2.map fun d => 1 / (2 * Real.pi) * Real.exp (-0.5 * (d / bw) ^ 2))
        else if method = "epanechnikov" then some (dis2.map fun d => 1 - (d / bw) ^ 2)
        else none) with
      | none => .error .typeError
      | some w0 =>
        let w1 := w0.map fun w => if w < 0 then 0 else w
        let w2 := if nicest then
            (w1.zip ext2).map fun p =>
              match p.2 with
              | some e => some (p.1 * (10 : ℝ) ^ ((0.33 : ℝ) * e))
              | none => none
          else w1.map some
        let w3 := (w2.zip ext2).map fun p => if p.2.isSome then p.1 else none
        let num := ((w3.zip ext2).map fun p =>
          match p.1, p.2 with
          | some w, some e => w * e
          | _, _ => 0).sum
        let den := (w3.map fun v => v.getD 0).sum
        let nume := ((w3.zip ext_err2).map fun p =>
          match p.1, p.2 with
          | some w, some e => (w * e) ^ 2
          | _, _ => 0).sum
        let epixel : Val ℝ := if den = 0 then none else some (num / den)
        let epixel_err : Val ℝ := if den = 0 then none
          else some (Real.sqrt (nume / den ^ 2))
        .ok (epixel, epixel_err, npixel)

theorem maskFilter_eq_nil {β : Type} {mask : List Bool} (h : mask.count true = 0)
    (l : List β) : maskFilter mask l = [] := by
  have hfalse : ∀ b ∈ mask, b = false := by
    intro b hb
    cases b
    · rfl
    · exact absurd (List.count_eq_zero.1 h) (fun hc => hc hb)
  unfold maskFilter
  rw [List.filter_eq_nil.2, List.map_nil]
  intro p hp
  have := (List.of_mem_zip hp).1
  rw [hfalse p.1 this]
  simp

theorem pixelDmask_nil_of_box_empty {xg yg bw : ℝ} {method : String} {xd yd : List ℝ}
    (hb : (pixelBoxMask xg yg bw method xd yd).count true = 0) :
    pixelDmask xg yg bw method xd yd = [] := by
  rw [pixelDmask, pixelDis, maskFilter_eq_nil hb]
  simp

/-- C7: the spatial truncation radius of `get_extinction_pixel` equals the
bandwidth for `average`/`median` and three bandwidths otherwise; whenever no
source survives the spatial cut, or fewer than 2 surviving sources have a
finite extinction, the pixel output is `(NaN, NaN, count)` where `count` is
the number of sources that survived the spatial cut. -/
theorem getExtinctionPixel_trunc_and_insufficient :
    (truncFactor "average" = 1 ∧ truncFactor "median" = 1 ∧
      ∀ method : String, method ≠ "average" → method ≠ "median" →
        truncFactor method = 3) ∧
    ∀ (xg yg bw : ℝ) (method : String) (nicest : Bool) (xd yd : List ℝ)
      (ext ext_err : List (Val ℝ)),
      ((pixelDmask xg yg bw method xd yd).count true = 0 ∨
        (pixelExt2 xg yg bw method xd yd ext).countP (fun v => v.isSome) < 2) →
      getExtinctionPixel xg yg xd yd ext ext_err bw method nicest =
        .ok (none, none, (pixelDmask xg yg bw method xd yd).count true) := by
  constructor
  · refine ⟨by norm_num [truncFactor], by norm_num [truncFactor], ?_⟩
    intro method h1 h2
    rw [truncFactor, if_neg]
    rintro (h | h)
    · exact h1 h
    · exact h2 h
  · intro xg yg bw method nicest xd yd ext ext_err hins
    rw [getExtinctionPixel]
    by_cases hb : (pixelBoxMask xg yg bw method xd yd).count true = 0
    · rw [if_pos hb, pixelDmask_nil_of_box_empty hb]
      rfl
    · rw [if_neg hb, if_pos hins]

/-- Witness for C7 at a concrete input (empty source lists). -/
theorem getExtinctionPixel_trunc_witness :
    (truncFactor "average" = 1 ∧ truncFactor "median" = 1 ∧
      ∀ method : String, method ≠ "average" → method ≠ "median" →
        truncFactor method = 3) ∧
    getExtinctionPixel 0 0 [] [] [] [] 1 "uniform" false =
      .ok (none, none, (pixelDmask 0 0 1 "uniform" [] []).count true) :=
  ⟨(getExtinctionPixel_trunc_and_insufficient).1,
    (getExtinctionPixel_trunc_and_insufficient).2 0 0 1 "uniform" false [] [] [] []
      (Or.inl rfl)⟩

/-! ### PNICER single (`DataBase._pnicer_single`)

The feature space has `d + 2` features (the constructor guarantees at least
two), so the transverse (non-reddening) space has `d + 1` dimensions.  The
`sklearn` kernel-density model fitted on the rotated control data is
abstracted as an arbitrary pointwise evaluator `K` (the `exp` of
`score_samples`); everything else is embedded from the source. -/

/-- One catalog source: per-feature magnitude and error values. -/
structure SourceR (nf : ℕ) where
  mag : Fin nf → Val ℝ
  err : Fin nf → Val ℝ

/-- Validity of a source: finite value AND finite error in every feature
(`features_masks` combined over all features). -/
def validB {nf : ℕ} (s : SourceR nf) : Bool :=
  (List.finRange nf).all fun f => (s.mag f).isSome && (s.err f).isSome

/-- Feature vector of a (valid) source as real numbers. -/
def magVec {nf : ℕ} (s : SourceR nf) : Fin nf → ℝ := fun f => (s.mag f).getD 0

/-- Rotated feature vector of a source: `rotate()` applies the extinction
vector's rotation matrix to the masked data columns. -/
noncomputable def rotFeat {nf : ℕ} (extvec : Fin nf → ℝ) (s : SourceR nf) :
    Fin nf → ℝ :=
  (rotMatrix extvec).mulVec (magVec s)

/-- First component of the rotated extinction vector
(`extvec.extinction_norm`). -/
noncomputable def extNorm {d : ℕ} (extvec : Fin (d + 2) → ℝ) : ℝ :=
  (rotMatrix extvec).mulVec extvec 0

/-- `np.mean` with NaN propagation. -/
noncomputable def npMeanL (l : List (Val ℝ)) : Val ℝ :=
  if l.all (fun v => v.isSome) then some ((l.filterMap id).sum / l.length) else none

/-- `np.around(x, 2)`. -/
noncomputable def around2 (x : ℝ) : ℝ := around (x * 100) / 100

/-- Kernel bandwidth:
`np.around(np.mean(np.nanmean(self.features_err, axis=1)), 2)`. -/
noncomputable def bandwidthV {nf : ℕ} (sci : List (SourceR nf)) : Val ℝ :=
  (npMeanL ((List.finRange nf).map fun f =>
    npNanmeanL (sci.map fun s => s.err f))).map around2

/-- Bin width `bandwidth / sampling` (finite whenever the bandwidth is; the
`getD 0` totalizes the degenerate all-NaN-errors case, in which the Python
code would build NaN grids). -/
noncomputable def binWidth {nf : ℕ} (sci : List (SourceR nf)) (sampling : ℝ) : ℝ :=
  (bandwidthV sci).getD 0 / sampling

/-- Transverse coordinates: all rotated components but the first. -/
noncomputable def tvec {d : ℕ} (extvec : Fin (d + 2) → ℝ) (s : SourceR (d + 2)) :
    Fin (d + 1) → ℝ :=
  fun j => rotFeat extvec s j.succ

/-- The transverse grid: unique quantized positions of the valid (rotated)
science sources' transverse coordinates. -/
noncomputable def gridData {d : ℕ} (extvec : Fin (d + 2) → ℝ)
    (sci : List (SourceR (d + 2))) (sampling : ℝ) : List (Fin (d + 1) → ℝ) :=
  buildGridP (fun g j => roundPrec (binWidth sci sampling) (g j))
    ((sci.filter validB).map (tvec extvec))

/-- `np.arange(start, stop, step)`. -/
noncomputable def arange (start stop step : ℝ) : List ℝ :=
  (List.range (Int.ceil ((stop - start) / step)).toNat).map fun k => start + k * step

/-- `np.min` of a list (meaningful on nonempty input). -/
def listMinR (l : List ℝ) : ℝ :=
  match l with
  | [] => 0
  | x :: xs => xs.foldl min x

/-- `np.max` of a list (meaningful on nonempty input). -/
def listMaxR (l : List ℝ) : ℝ :=
  match l with
  | [] => 0
  | x :: xs => xs.foldl max x

/-- The reddening-axis grid, spanning the floor of the minimum to the ceiling
of the maximum of the rotated science reddening feature. -/
noncomputable def gridExt {d : ℕ} (extvec : Fin (d + 2) → ℝ)
    (sci : List (SourceR (d + 2))) (sampling : ℝ) : List ℝ :=
  arange (Int.floor (listMinR ((sci.filter validB).map fun s => rotFeat extvec s 0)))
    (Int.ceil (listMaxR ((sci.filter validB).map fun s => rotFeat extvec s 0)))
    (binWidth sci sampling)

/-- Absolute-mode scale of `mp_kde`: `data.shape[0] / np.sum(mp) * sampling`,
the sum running over the kernel densities of the whole combined grid (the
cross of the reddening axis with the transverse grid). -/
noncomputable def kdeScale {d : ℕ} (K : (Fin (d + 2) → ℝ) → ℝ)
    (gData : List (Fin (d + 1) → ℝ)) (gExt : List ℝ) (nControl : ℕ)
    (sampling : ℝ) : ℝ :=
  (nControl : ℝ) / (gData.map fun g => (gExt.map fun e => K (Fin.cons e g)).sum).sum *
    sampling

/-- Absolute (rescaled) density vector along the reddening axis at one
transverse grid point. -/
noncomputable def densVec {d : ℕ} (K : (Fin (d + 2) → ℝ) → ℝ)
    (gData : List (Fin (d + 1) → ℝ)) (gExt : List ℝ) (nControl : ℕ) (sampling : ℝ)
    (g : Fin (d + 1) → ℝ) : List ℝ :=
  gExt.map fun e => kdeScale K gData gExt nControl sampling * K (Fin.cons e g)

/-- Density-weighted mean and standard deviation of the reddening axis at one
transverse grid point (`weighted_avg`; `(NaN, NaN)` when the density mass is
below 3; the std is divided by the normalization). -/
noncomputable def gridStats {d : ℕ} (extvec : Fin (d + 2) → ℝ)
    (K : (Fin (d + 2) → ℝ) → ℝ) (gData : List (Fin (d + 1) → ℝ)) (gExt : List ℝ)
    (nControl : ℕ) (sampling : ℝ) (g : Fin (d + 1) → ℝ) : Val ℝ × Val ℝ :=
  let vec := densVec K gData gExt nControl sampling g
  if vec.sum < 3 then (none, none)
  else
    let sw := vec.sum
    let avg := ((gExt.zip vec).map fun p => p.1 * p.2).sum / sw
    let varv := ((gExt.zip vec).map fun p => (p.1 - avg) ^ 2 * p.2).sum / sw
    (some avg, some (Real.sqrt varv / extNorm extvec))

/-- Squared Euclidean distance in transverse space. -/
noncomputable def tdist2 {d : ℕ} (g h : Fin (d + 1) → ℝ) : ℝ := ∑ j, (g j - h j) ^ 2

/-- Index of the nearest transverse grid point of a source
(`NearestNeighbors(n_neighbors=1)` over the transverse grid). -/
noncomputable def nearestIdx {d : ℕ} (extvec : Fin (d + 2) → ℝ)
    (gData : List (Fin (d + 1) → ℝ)) (s : SourceR (d + 2)) : ℕ :=
  match (gData.map (tdist2 (tvec extvec s))).min? with
  | some m => (gData.map (tdist2 (tvec extvec s))).findIdx (fun x => decide (x = m))
  | none => 0

/-- The intrinsic means over the transverse grid (`grid_mean`). -/
noncomputable def pnicerGridMean {d : ℕ} (extvec : Fin (d + 2) → ℝ)
    (sci ctrl : List (SourceR (d + 2))) (K : (Fin (d + 2) → ℝ) → ℝ) (sampling : ℝ) :
    List (Val ℝ) :=
  (gridData extvec sci sampling).map fun g =>
    (gridStats extvec K (gridData extvec sci sampling) (gridExt extvec sci sampling)
      (ctrl.filter validB).length sampling g).1

/-- The standard deviations over the transverse grid (`grid_std`). -/
noncomputable def pnicerGridStd {d : ℕ} (extvec : Fin (d + 2) → ℝ)
    (sci ctrl : List (SourceR (d + 2))) (K : (Fin (d + 2) → ℝ) → ℝ) (sampling : ℝ) :
    List (Val ℝ) :=
  (gridData extvec sci sampling).map fun g =>
    (gridStats extvec K (gridData extvec sci sampling) (gridExt extvec sci sampling)
      (ctrl.filter validB).length sampling g).2

/-- Per-valid-source extinction:
`(science_rot.features[0] - grid_mean[indices]) / extinction_norm`. -/
noncomputable def pnicerExtOf {d : ℕ} (extvec : Fin (d + 2) → ℝ)
    (sci ctrl : List (SourceR (d + 2))) (K : (Fin (d + 2) → ℝ) → ℝ) (sampling : ℝ)
    (s : SourceR (d + 2)) : Val ℝ :=
  ((pnicerGridMean extvec sci ctrl K sampling).getD
      (nearestIdx extvec (gridData extvec sci sampling) s) none).map
    fun mu => (rotFeat extvec s 0 - mu) / extNorm extvec

/-- Per-valid-source error: `grid_std[indices]`. -/
noncomputable def pnicerErrOf {d : ℕ} (extvec : Fin (d + 2) → ℝ)
    (sci ctrl : List (SourceR (d + 2))) (K : (Fin (d + 2) → ℝ) → ℝ) (sampling : ℝ)
    (s : SourceR (d + 2)) : Val ℝ :=
  (pnicerGridStd extvec sci ctrl K sampling).getD
    (nearestIdx extvec (gridData extvec sci sampling) s) none

/-- Scatter of the compressed per-valid-source results into the full-length
output: `out = np.full(n_data, np.nan); out[mask] = ext`. -/
def scatterMask : List Bool → List (Val ℝ) → List (Val ℝ)
  | [], _ => []
  | true :: ms, v :: vs => v :: scatterMask ms vs
  | true :: ms, [] => none :: scatterMask ms []
  | false :: ms, vs => none :: scatterMask ms vs

/-- Embedding of `_pnicer_single`: the pair of full-length output arrays.
This totalization returns full-length NaN arrays on inputs where the program
raises instead (no jointly-valid science source: `min` of empty rotated data;
no valid control source: the KDE fit; non-finite bandwidth), so the
specification theorem is stated only under hypotheses excluding those
inputs. -/
noncomputable def pnicerSingle {d : ℕ} (extvec : Fin (d + 2) → ℝ)
    (sci ctrl : List (SourceR (d + 2))) (K : (Fin (d + 2) → ℝ) → ℝ) (sampling : ℝ) :
    List (Val ℝ) × List (Val ℝ) :=
  (scatterMask (sci.map validB)
      ((sci.filter validB).map (pnicerExtOf extvec sci ctrl K sampling)),
    scatterMask (sci.map validB)
      ((sci.filter validB).map (pnicerErrOf extvec sci ctrl K sampling)))

theorem scatterMask_length : ∀ (ms : List Bool) (vs : List (Val ℝ)),
    (scatterMask ms vs).length = ms.length := by
  intro ms
  induction ms with
  | nil => intro vs; rfl
  | cons b ms ih =>
    intro vs
    cases b
    · show (none :: scatterMask ms vs).length = _
      rw [List.length_cons, ih, List.length_cons]
    · cases vs
      · show (none :: scatterMask ms []).length = _
        rw [List.length_cons, ih, List.length_cons]
      · show (_ :: scatterMask ms _).length = _
        rw [List.length_cons, ih, List.length_cons]

theorem scatter_filter_get {nf : ℕ} (f : SourceR nf → Val ℝ) :
    ∀ (l : List (SourceR nf)) (i : ℕ), i < l.length → ∀ s : SourceR nf,
      l[i]? = some s →
      (scatterMask (l.map validB) ((l.filter validB).map f))[i]? =
        some (if validB s then f s else none) := by
  intro l
  induction l with
  | nil =>
    intro i hi
    simp at hi
  | cons x xs ih =>
    intro i hi s hs
    cases hvx : validB x
    · rw [List.map_cons, hvx, List.filter_cons_of_neg (by rw [hvx]; simp)]
      show (none :: scatterMask (xs.map validB) ((xs.filter validB).map f))[i]? = _
      cases i with
      | zero =>
        rw [List.getElem?_cons_zero] at hs
        injection hs with hs
        subst hs
        rw [List.getElem?_cons_zero, hvx]
        simp
      | succ n =>
        rw [List.getElem?_cons_succ] at hs ⊢
        exact ih n (by simpa using hi) s hs
    · rw [List.map_cons, hvx, List.filter_cons_of_pos (by rw [hvx])]
      rw [List.map_cons]
      show (f x :: scatterMask (xs.map validB) ((xs.filter validB).map f))[i]? = _
      cases i with
      | zero =>
        rw [List.getElem?_cons_zero] at hs
        injection hs with hs
        subst hs
        rw [List.getElem?_cons_zero, hvx]
        simp
      | succ n =>
        rw [List.getElem?_cons_succ] at hs ⊢
        exact ih n (by simpa using hi) s hs

/-- C1: `_pnicer_single` returns two arrays of length `n_data` in original
catalog order; every entry outside the combined all-features-valid mask is
NaN; inside the mask the extinction equals (rotated science reddening value −
density-weighted intrinsic mean of the nearest transverse grid point) divided
by the normalization scalar, and the error equals that grid point's standard
deviation.  Stated only for inputs on which the program completes: at least
one jointly-valid science source (otherwise `min()` of the empty rotated
reddening data raises at line 207), at least one valid control source
(otherwise the `sklearn` density fit raises), a finite kernel bandwidth and a
positive bin width (otherwise the grid construction degenerates). -/
theorem pnicerSingle_spec {d : ℕ} (extvec : Fin (d + 2) → ℝ)
    (sci ctrl : List (SourceR (d + 2))) (K : (Fin (d + 2) → ℝ) → ℝ) (sampling : ℝ)
    (i : ℕ) (hi : i < sci.length) (hsci : sci.filter validB ≠ [])
    (hctrl : ctrl.filter validB ≠ []) (hbw : (bandwidthV sci).isSome = true)
    (hbin : 0 < binWidth sci sampling) :
    (pnicerSingle extvec sci ctrl K sampling).1.length = sci.length ∧
    (pnicerSingle extvec sci ctrl K sampling).2.length = sci.length ∧
    ∀ s : SourceR (d + 2), sci[i]? = some s →
      (validB s = false →
        (pnicerSingle extvec sci ctrl K sampling).1[i]? = some none ∧
        (pnicerSingle extvec sci ctrl K sampling).2[i]? = some none) ∧
      (validB s = true →
        (pnicerSingle extvec sci ctrl K sampling).1[i]? =
          some (((pnicerGridMean extvec sci ctrl K sampling).getD
              (nearestIdx extvec (gridData extvec sci sampling) s) none).map
            fun mu => (rotFeat extvec s 0 - mu) / extNorm extvec) ∧
        (pnicerSingle extvec sci ctrl K sampling).2[i]? =
          some ((pnicerGridStd extvec sci ctrl K sampling).getD
            (nearestIdx extvec (gridData extvec sci sampling) s) none)) := by
  refine ⟨?_, ?_, ?_⟩
  · show (scatterMask _ _).length = _
    rw [scatterMask_length, List.length_map]
  · show (scatterMask _ _).length = _
    rw [scatterMask_length, List.length_map]
  · intro s hs
    have h1 := scatter_filter_get (pnicerExtOf extvec sci ctrl K sampling) sci i hi s hs
    have h2 := scatter_filter_get (pnicerErrOf extvec sci ctrl K sampling) sci i hi s hs
    constructor
    · intro hvf
      rw [hvf] at h1 h2
      simp only [Bool.false_eq_true, if_false] at h1 h2
      exact ⟨h1, h2⟩
    · intro hvt
      rw [hvt] at h1 h2
      simp only [if_true] at h1 h2
      exact ⟨h1, h2⟩

/-- Witness source for C1: one fully valid source. -/
noncomputable def c1src : SourceR 2 :=
  ⟨fun _ => some 1, fun _ => some 1⟩

theorem validB_c1src : validB c1src = true := by
  simp [validB, c1src, finRange_two]

theorem bandwidthV_c1src : bandwidthV [c1src] = some 1 := by
  have h100 : around ((100 : ℤ) : ℝ) = ((100 : ℤ) : ℝ) := around_intCast 100
  norm_num at h100
  have hmean : ∀ f : Fin 2, npNanmeanL [c1src.err f] = some 1 := by
    intro f
    norm_num [npNanmeanL, c1src, List.filterMap]
  rw [bandwidthV, finRange_two]
  simp only [List.map_cons, List.map_nil, hmean]
  rw [npMeanL]
  norm_num [List.filterMap, around2, h100]

theorem binWidth_c1src : binWidth [c1src] 2 = 1 / 2 := by
  rw [binWidth, bandwidthV_c1src]
  norm_num

/-- Witness for C1 at a concrete input: one valid science source, one valid
control source, all hypotheses discharged. -/
theorem pnicerSingle_spec_witness :
    (pnicerSingle (fun _ => 1) [c1src] [c1src] (fun _ => 1) 2).1.length =
      [c1src].length ∧
    (pnicerSingle (fun _ => 1) [c1src] [c1src] (fun _ => 1) 2).2.length =
      [c1src].length ∧
    ∀ s : SourceR 2, [c1src][0]? = some s →
      (validB s = false →
        (pnicerSingle (fun _ => 1) [c1src] [c1src] (fun _ => 1) 2).1[0]? =
          some none ∧
        (pnicerSingle (fun _ => 1) [c1src] [c1src] (fun _ => 1) 2).2[0]? =
          some none) ∧
      (validB s = true →
        (pnicerSingle (fun _ => 1) [c1src] [c1src] (fun _ => 1) 2).1[0]? =
          some (((pnicerGridMean (fun _ => 1) [c1src] [c1src] (fun _ => 1) 2).getD
              (nearestIdx (fun _ => 1) (gridData (fun _ => 1) [c1src] 2) s) none).map
            fun mu => (rotFeat (fun _ => 1) s 0 - mu) / @extNorm 0 (fun _ => 1)) ∧
        (pnicerSingle (fun _ => 1) [c1src] [c1src] (fun _ => 1) 2).2[0]? =
          some ((pnicerGridStd (fun _ => 1) [c1src] [c1src] (fun _ => 1) 2).getD
            (nearestIdx (fun _ => 1) (gridData (fun _ => 1) [c1src] 2) s) none)) :=
  pnicerSingle_spec (fun _ => 1) [c1src] [c1src] (fun _ => 1) 2 0 (by norm_num)
    (by rw [List.filter_cons_of_pos validB_c1src]; exact List.cons_ne_nil _ _)
    (by rw [List.filter_cons_of_pos validB_c1src]; exact List.cons_ne_nil _ _)
    (by rw [bandwidthV_c1src]; rfl)
    (by rw [binWidth_c1src]; norm_num)

end Pnicer
